import Mathlib

/-!
A shallow embedding of the SlimTrie read-side query engine and its bit-packed
node representation, together with proofs about its lookup operations.

Conventions of the embedding:
* 64-bit machine words are natural numbers; where Go wraps modulo 2^64 the
  wrap is made explicit or shown unnecessary on the reachable domain.
* Go `int32` quantities (node ids, bit cursors, bit lengths) are integers,
  with -1 used as the "absent" sentinel exactly as the source does.
* Go's `i >> 3`, `i & 7`, `i &^ 7` are written `i / 8`, `i % 8`, `i - i % 8`;
  these agree with Go on the reachable domain `0 ≤ i`.
* The unbounded descent loops of the source are given explicit fuel; the fuel
  is large enough for every terminating run on the instances considered, and
  both descent loops receive the same fuel.
* Library routines of github.com/openacid/low (bitmap rank/select, bitstr)
  and repository code that is not part of the query engine are modelled from
  the specification's contracts; each such definition is marked
  `Modelled from the spec`.
-/

namespace SlimTrie

/-- Bit `p` of a word array read as a bit stream: bit `p % 64` (LSB first)
of word `p / 64`; 0 outside the array. -/
def wBit (ws : List Nat) (p : Nat) : Nat :=
  if (ws.getD (p / 64) 0).testBit (p % 64) then 1 else 0

/-- Count of 1-bits in stream positions `[0, i)`. -/
def rank1 (ws : List Nat) : Nat → Nat
  | 0 => 0
  | i + 1 => rank1 ws i + wBit ws i

/-- Modelled from the spec (§4.1, bitmap.Rank64 is not under src/):
rank returns the count of 1-bits in positions `[0, i)` and the bit at `i`.
The source precomputes a rank index every 64 bits; the behavioural contract
is exact rank. -/
def rank64 (ws : List Nat) (i : Int) : Int × Int :=
  ((rank1 ws i.toNat : Nat), (wBit ws i.toNat : Nat))

/-- Modelled from the spec (§4.1, bitmap.Rank128 is not under src/): the
dense-bitmap rank flavour; same behavioural contract as rank64. -/
def rank128 (ws : List Nat) (i : Int) : Int × Int := rank64 ws i

/-- Positions of the 1-bits of a word array, in increasing order. -/
def onePositions (ws : List Nat) : List Nat :=
  (List.range (64 * ws.length)).filter (fun p => wBit ws p == 1)

/-- Modelled from the spec (§4.1, bitmap.Select32R64 is not under src/):
select over a positions bitmap returns the k-th and (k+1)-th set-bit
positions, delimiting the k-th variable-length blob. -/
def select32R64 (ws : List Nat) (k : Nat) : Nat × Nat :=
  ((onePositions ws).getD k 0, (onePositions ws).getD (k + 1) 0)

/-- Number of set bits (bits.OnesCount64). -/
def popcnt (n : Nat) : Nat := n.bits.count true

/-- The `width`-bit field of a bit stream starting at position `f`,
least-significant bit first: the mathematical value the short-node
extraction must produce. -/
def bitsField (ws : List Nat) (f : Nat) : Nat → Nat
  | 0 => 0
  | s + 1 => wBit ws f + 2 * bitsField ws (f + 1) s

/-- The bits of a byte, most significant first: the order in which the trie
consumes key bits. -/
def byteBits (b : Nat) : List Bool :=
  (List.range 8).map (fun j => b.testBit (7 - j))

/-- A byte string as a bit string, most significant bit of each byte first. -/
def bitsOfBytes (bs : List Nat) : List Bool :=
  (bs.map byteBits).flatten

/-- Three-way lexicographic comparison of bit lists; a proper prefix is
smaller. -/
def cmpBoolList : List Bool → List Bool → Int
  | [], [] => 0
  | [], _ :: _ => -1
  | _ :: _, [] => 1
  | a :: as, b :: bs => if a = b then cmpBoolList as bs else if b then -1 else 1

/-- Three-way lexicographic byte comparison (bytes.Compare). -/
def cmpBytes : List Nat → List Nat → Int
  | [], [] => 0
  | [], _ :: _ => -1
  | _ :: _, [] => 1
  | a :: as, b :: bs => if a < b then -1 else if b < a then 1 else cmpBytes as bs

/-- Trailing zeros of a byte (bits.TrailingZeros8): 8 when no bit below 8 is
set. -/
def tz8 (b : Nat) : Nat :=
  ((List.range 8).find? (fun k => b.testBit k)).getD 8

/-- Modelled from the spec (§4.2, bitstr.Len is not under src/): a prefix is
stored as its payload bits followed by a single terminator 1-bit and zero
padding; the terminator is the lowest set bit of the final byte and only the
bits above it are payload, so the bit length of an `n`-byte blob is
`8*n - tz - 1` where `tz` counts the trailing zeros of the final byte. -/
def bitstrLen (bs : List Nat) : Int :=
  if bs.isEmpty then 0 else 8 * bs.length - tz8 (bs.getLastD 0) - 1

/-- Modelled from the spec (§4.2, bitstr.StrCmpUpto is not under src/):
compare the key tail against the stored prefix restricted to the prefix's
bit length; bits of the key beyond that length do not participate, and a key
tail shorter than the prefix compares below it. -/
def strCmpUpto (s : List Nat) (bstr : List Nat) : Int :=
  let n := (bitstrLen bstr).toNat
  cmpBoolList ((bitsOfBytes s).take n) ((bitsOfBytes bstr).take n)

/-- Modelled from the spec (§4.2, decStep is not under src/): little-endian
16-bit bit length of a length-only inner prefix. -/
def decStep (bs : List Nat) : Int :=
  (bs.getD 0 0 : Nat) + 256 * (bs.getD 1 0 : Nat)

/-- Modelled from the spec §4.6: derived constant, bits of a normal inner
node bitmap. -/
def innerSize : Int := 17

/-- Modelled from the spec §4.6: derived constant, bits of a big inner node
bitmap. -/
def bigInnerSize : Int := 257

/-- Modelled from the spec §4.6: label width of a big inner node. -/
def bigWordSize : Int := 8

/-- Modelled from the spec §4.6: label width of a normal inner node. -/
def wordSize : Int := 4

/-- The InnerPrefixes container of the packed representation (spec §6):
presence bitmap over inner ordinals, optional positions bitmap over the byte
pool, and the byte pool.  When the positions bitmap is absent the pool is a
flat 2-byte-per-entry length table. -/
structure InnerPrefixesT where
  eltCnt : Int
  presenceWords : List Nat
  positionWords : Option (List Nat)
  bytes : List Nat
deriving DecidableEq, Repr

/-- The LeafPrefixes container of the packed representation (spec §6). -/
structure LeafPrefixesT where
  presenceWords : List Nat
  positionWords : List Nat
  bytes : List Nat
deriving DecidableEq, Repr

/-- The Leaves container: fixed-size value payloads by leaf ordinal.
`fixedSize` stands for the value codec's `GetEncodedSize(nil)` (spec §4.4 and
§6; the codec itself is an external contract). -/
structure LeavesT where
  bytes : List Nat
  fixedSize : Nat
deriving DecidableEq, Repr

/-- The packed SlimTrie representation consumed read-only by the query
engine (source `Slim` plus the derived `vars` of st.init, spec §6):
`nodeTypeBM` is the inner/leaf bitmap over node ids (absent for the empty
trie), `inners` the concatenation of all inner bitmaps, `shortBM` marks
short inners, `shortTable` expands short codes to 17-bit bitmaps. -/
structure Slim where
  nodeTypeBM : Option (List Nat)
  inners : List Nat
  shortBM : List Nat
  shortTable : List Nat
  bigInnerCnt : Int
  shortSize : Nat
  bigInnerOffset : Int
  shortMinusInner : Int
  innerPrefixes : InnerPrefixesT
  leafPrefixes : Option LeafPrefixesT
  leaves : Option LeavesT
deriving DecidableEq, Repr

/-- The per-query scratch record (source querySession).  The embedding fills
a fresh record at each getNode call; fields the source leaves stale are set
to their zero values, which on the reachable paths coincides with the
source's behaviour (leaf fields are only read after a getNode on the final
node, and inner-prefix fields are reset by getNode itself). -/
structure QuerySession where
  keyBitLen : Int
  key : List Nat
  wordSize : Int
  fromBit : Int
  toBit : Int
  bm : Nat
  isInner : Int
  ithInner : Int
  hasInnerPrefix : Bool
  innerPrefixLen : Int
  innerPrefix : List Nat
  ithLeaf : Int
  hasLeafPrefix : Bool
  leafPrefix : List Nat
deriving DecidableEq, Repr

def defaultQS : QuerySession :=
  { keyBitLen := 0, key := [], wordSize := 0, fromBit := 0, toBit := 0, bm := 0,
    isInner := 0, ithInner := 0, hasInnerPrefix := false, innerPrefixLen := 0,
    innerPrefix := [], ithLeaf := 0, hasLeafPrefix := false, leafPrefix := [] }

/-- Leaf-prefix lookup (source getLeafPrefix): presence bit over leaf
ordinals, then select over the positions bitmap to delimit the stored tail. -/
def getLeafPrefix (st : Slim) (ithLeaf : Int) : Bool × List Nat :=
  match st.leafPrefixes with
  | none => (false, [])
  | some lp =>
    if wBit lp.presenceWords ithLeaf.toNat = 1 then
      let ithPref := rank1 lp.presenceWords ithLeaf.toNat
      let ft := select32R64 lp.positionWords ithPref
      (true, (lp.bytes.drop ft.1).take (ft.2 - ft.1))
    else (false, [])

/-- Inner-prefix decode step of getNode (source lines 458-478): returns
(hasInnerPrefix, innerPrefixLen, innerPrefix). -/
def innerPrefixInfo (st : Slim) (ithInner : Int) : Bool × Int × List Nat :=
  let ips := st.innerPrefixes
  if ips.eltCnt > 0 ∧ wBit ips.presenceWords ithInner.toNat = 1 then
    let ithPref := (rank128 ips.presenceWords ithInner).1
    match ips.positionWords with
    | some pw =>
      let ft := select32R64 pw ithPref.toNat
      let pfx := (ips.bytes.drop ft.1).take (ft.2 - ft.1)
      (true, bitstrLen pfx, pfx)
    | none => (false, decStep (ips.bytes.drop (ithPref.toNat * 2)), [])
  else (false, 0, [])

/-- Node decoder (source getNode): classify the node id via rank on
nodeTypeBM, compute the bitmap bit range of an inner node, expand a short
node through shortTable, and attach prefix information. -/
def getNode (st : Slim) (key : List Nat) (l : Int) (nodeId : Int) : QuerySession :=
  let ntWords := st.nodeTypeBM.getD []
  let ri := rank64 ntWords nodeId
  let ithInner := ri.1
  let isInner := ri.2
  if isInner = 0 then
    let ithLeaf := nodeId - ithInner
    let lp := getLeafPrefix st ithLeaf
    { keyBitLen := l, key := key, wordSize := 0, fromBit := 0, toBit := 0, bm := 0,
      isInner := isInner, ithInner := ithInner, hasInnerPrefix := false,
      innerPrefixLen := 0, innerPrefix := [], ithLeaf := ithLeaf,
      hasLeafPrefix := lp.1, leafPrefix := lp.2 }
  else
    let pi := innerPrefixInfo st ithInner
    if ithInner < st.bigInnerCnt then
      { keyBitLen := l, key := key, wordSize := bigWordSize,
        fromBit := ithInner * bigInnerSize, toBit := ithInner * bigInnerSize + bigInnerSize,
        bm := 0, isInner := isInner, ithInner := ithInner,
        hasInnerPrefix := pi.1, innerPrefixLen := pi.2.1, innerPrefix := pi.2.2,
        ithLeaf := 0, hasLeafPrefix := false, leafPrefix := [] }
    else
      let rs := rank64 st.shortBM ithInner
      let ithShort := rs.1
      let isShort := rs.2
      let fromBit := st.bigInnerOffset + innerSize * ithInner + st.shortMinusInner * ithShort
      if isShort = 1 then
        let j := fromBit.toNat % 64
        let w := st.inners.getD (fromBit.toNat / 64) 0
        let bm0 :=
          if j ≤ 64 - st.shortSize then
            (w >>> j) &&& (2 ^ st.shortSize - 1)
          else
            let w2 := st.inners.getD ((fromBit + (st.shortSize : Int)).toNat / 64) 0
            (w >>> j) ||| ((w2 <<< (64 - j)) &&& (2 ^ st.shortSize - 1))
        { keyBitLen := l, key := key, wordSize := wordSize,
          fromBit := fromBit, toBit := fromBit + (st.shortSize : Int),
          bm := st.shortTable.getD bm0 0, isInner := isInner, ithInner := ithInner,
          hasInnerPrefix := pi.1, innerPrefixLen := pi.2.1, innerPrefix := pi.2.2,
          ithLeaf := 0, hasLeafPrefix := false, leafPrefix := [] }
      else
        { keyBitLen := l, key := key, wordSize := wordSize,
          fromBit := fromBit, toBit := fromBit + innerSize,
          bm := 0, isInner := isInner, ithInner := ithInner,
          hasInnerPrefix := pi.1, innerPrefixLen := pi.2.1, innerPrefix := pi.2.2,
          ithLeaf := 0, hasLeafPrefix := false, leafPrefix := [] }

/-- Label extraction (source getLabelIdxOfKey): 0 past the end of the key,
`1 + byte` at a big node, `1 + nibble` (high nibble first) at a 4-bit node. -/
def getLabelIdxOfKey (qr : QuerySession) (keyBitIdx : Int) : Int :=
  if keyBitIdx < qr.keyBitLen then
    if qr.wordSize = bigWordSize then
      1 + (qr.key.getD (keyBitIdx / 8).toNat 0 : Nat)
    else
      let b := qr.key.getD (keyBitIdx / 8).toNat 0
      let b := if keyBitIdx % 8 < 4 then b >>> 4 else b
      1 + ((b &&& 15 : Nat) : Int)
  else 0

/-- Child resolution at a label-bit index (body of source getLeftChildID):
rank before the label position, and whether the label bit is set. -/
def getLeftChildAt (st : Slim) (qr : QuerySession) (ithBit : Int) : Int × Int :=
  if qr.toBit - qr.fromBit = (st.shortSize : Int) then
    let r0 := (rank128 st.inners qr.fromBit).1
    (r0 + (popcnt (qr.bm &&& (2 ^ ithBit.toNat - 1)) : Nat),
     ((qr.bm >>> ithBit.toNat) &&& 1 : Nat))
  else rank128 st.inners (qr.fromBit + ithBit)

/-- Source getLeftChildID: child resolution at the key's label. -/
def getLeftChildID (st : Slim) (qr : QuerySession) (keyBitIdx : Int) : Int × Int :=
  getLeftChildAt st qr (getLabelIdxOfKey qr keyBitIdx)

def getFuel (st : Slim) : Nat := 64 * (st.nodeTypeBM.getD []).length + 1

/-- The descent loop of GetID (source lines 144-184).  `none` stands for the
in-loop `return -1` paths (and for fuel exhaustion); `some (i, eqID, qr)`
carries the state at loop exit. -/
def getIDLoop (st : Slim) (key : List Nat) (l : Int) :
    Nat → Int → Int → Option (Int × Int × QuerySession)
  | 0, _, _ => none
  | fuel + 1, i, eqID =>
    let qr := getNode st key l eqID
    if qr.isInner = 0 then some (i, eqID, qr)
    else
      let step :=
        if qr.hasInnerPrefix then
          if strCmpUpto (key.drop (i / 8).toNat) qr.innerPrefix = 0 then
            some (i - i % 8 + qr.innerPrefixLen)
          else none
        else some (i + qr.innerPrefixLen)
      match step with
      | none => none
      | some i2 =>
        if i2 > l then none
        else
          let ch := getLeftChildID st qr i2
          if ch.2 = 0 then none
          else
            let eqID2 := ch.1 + 1
            if i2 = l then some (i2, eqID2, qr)
            else getIDLoop st key l fuel (i2 + qr.wordSize) eqID2

/-- Leaf-prefix reconciliation of GetID after the descent (source lines
188-206). -/
def reconcileGetID (st : Slim) (key : List Nat) (l i eqID : Int)
    (qr : QuerySession) : Int :=
  if st.leafPrefixes.isSome then
    if i = l then
      if qr.hasLeafPrefix then -1 else eqID
    else
      if qr.hasLeafPrefix then
        if qr.leafPrefix = key.drop (i / 8).toNat then eqID else -1
      else -1
  else eqID

/-- Source GetID: exact lookup returning the leaf node id or -1. -/
def GetID (st : Slim) (key : List Nat) : Int :=
  if st.nodeTypeBM.isNone then -1
  else
    let l : Int := 8 * key.length
    match getIDLoop st key l (getFuel st) 0 0 with
    | none => -1
    | some (i, eqID, qr) => reconcileGetID st key l i eqID qr

/-- State of the searchID descent: the three tracked ids and the bit
cursor. -/
structure StepSt where
  lID : Int
  eqID : Int
  rID : Int
  i : Int
deriving DecidableEq, Repr

/-- Result of one searchID loop iteration: break out of the loop, or
continue with the new state. -/
inductive StepOut where
  | stop : StepSt → StepOut
  | cont : StepSt → StepOut
deriving DecidableEq, Repr

def StepOut.st : StepOut → StepSt
  | .stop s => s
  | .cont s => s

/-- Child resolution and sibling recording of one searchID iteration
(source lines 277-307), after the inner-prefix phase has advanced the
cursor to i2. -/
def searchChildPhase (st : Slim) (key : List Nat) (l : Int) (qr : QuerySession)
    (lID rID i2 : Int) : StepOut :=
  let ch := getLeftChildID st qr i2
  let leftChild := ch.1
  let has := ch.2
  let chID := leftChild + has
  let rightChild := chID + 1
  let leftMostChild := (rank128 st.inners qr.fromBit).1 + 1
  let rm := rank128 st.inners (qr.toBit - 1)
  let rightMostChild := rm.1 + rm.2
  let lID2 :=
    if leftMostChild ≤ leftChild ∧ leftChild ≤ rightMostChild then leftChild else lID
  let rID2 :=
    if leftMostChild ≤ rightChild ∧ rightChild ≤ rightMostChild then rightChild else rID
  if has = 0 then StepOut.stop (StepSt.mk lID2 (-1) rID2 i2)
  else if i2 = l then StepOut.stop (StepSt.mk lID2 chID rID2 i2)
  else StepOut.cont (StepSt.mk lID2 chID rID2 (i2 + qr.wordSize))

/-- One iteration of the searchID descent over an inner node (source lines
254-307): inner-prefix comparison, then child resolution and the recording
of left/right sibling subtrees. -/
def searchStep (st : Slim) (key : List Nat) (l : Int) (qr : QuerySession)
    (lID eqID rID i : Int) : StepOut :=
  let pfxStep :=
    if qr.hasInnerPrefix then
      let r := strCmpUpto (key.drop (i / 8).toNat) qr.innerPrefix
      if r = 0 then Sum.inr (i - i % 8 + qr.innerPrefixLen)
      else if r < 0 then Sum.inl (StepSt.mk lID (-1) eqID i)
      else Sum.inl (StepSt.mk eqID (-1) rID i)
    else
      let i2 := i + qr.innerPrefixLen
      if i2 > l then Sum.inl (StepSt.mk lID (-1) eqID i2)
      else Sum.inr i2
  match pfxStep with
  | Sum.inl s => StepOut.stop s
  | Sum.inr i2 => searchChildPhase st key l qr lID rID i2

/-- The descent loop of searchID (source lines 246-308); on fuel exhaustion
the equal id is -1, mirroring the undefinedness of a non-terminating run. -/
def searchLoop (st : Slim) (key : List Nat) (l : Int) :
    Nat → Int → Int → Int → Int → StepSt × QuerySession
  | 0, lID, _, rID, i => (StepSt.mk lID (-1) rID i, defaultQS)
  | fuel + 1, lID, eqID, rID, i =>
    let qr := getNode st key l eqID
    if qr.isInner = 0 then (StepSt.mk lID eqID rID i, qr)
    else
      match searchStep st key l qr lID eqID rID i with
      | .stop s => (s, qr)
      | .cont s => searchLoop st key l fuel s.lID s.eqID s.rID s.i

/-- Source cmpLeafPrefix: byte comparison of the key tail against the leaf
prefix (empty when absent), 0 when LeafPrefixes is not configured. -/
def cmpLeafPrefix (st : Slim) (tail : List Nat) (qr : QuerySession) : Int :=
  if st.leafPrefixes.isSome then
    cmpBytes tail (if qr.hasLeafPrefix then qr.leafPrefix else [])
  else 0

/-- Source leftMost: follow the first child down to a leaf. -/
def leftMostLoop (st : Slim) : Nat → Int → Int
  | 0, idx => idx
  | fuel + 1, idx =>
    let qr := getNode st [] 0 idx
    if qr.isInner = 0 then idx
    else leftMostLoop st fuel ((rank128 st.inners qr.fromBit).1 + 1)

def leftMost (st : Slim) (idx : Int) : Int := leftMostLoop st (getFuel st) idx

/-- Source rightMost: follow the last child down to a leaf. -/
def rightMostLoop (st : Slim) : Nat → Int → Int
  | 0, idx => idx
  | fuel + 1, idx =>
    let qr := getNode st [] 0 idx
    if qr.isInner = 0 then idx
    else
      let rm := rank128 st.inners (qr.toBit - 1)
      rightMostLoop st fuel (rm.1 + rm.2)

def rightMost (st : Slim) (idx : Int) : Int := rightMostLoop st (getFuel st) idx

/-- Source searchID: three-way search returning (lID, eqID, rID). -/
def searchID (st : Slim) (key : List Nat) : Int × Int × Int :=
  if st.nodeTypeBM.isNone then (-1, -1, -1)
  else
    let l : Int := 8 * key.length
    let res := searchLoop st key l (getFuel st) (-1) 0 (-1) 0
    let s := res.1
    let qr := res.2
    let s2 :=
      if s.eqID ≠ -1 ∧ s.i ≤ l then
        let r := cmpLeafPrefix st (key.drop (s.i / 8).toNat) qr
        if r = -1 then StepSt.mk s.lID (-1) s.eqID s.i
        else if r = 1 then StepSt.mk s.eqID (-1) s.rID s.i
        else s
      else s
    let lID := if s2.lID ≠ -1 then rightMost st s2.lID else s2.lID
    let rID := if s2.rID ≠ -1 then leftMost st s2.rID else s2.rID
    (lID, s2.eqID, rID)

/-- Source getLeafIndex: leaf ordinal and the node-type bit of a node id. -/
def getLeafIndex (st : Slim) (nodeid : Int) : Int × Int :=
  let r := rank64 (st.nodeTypeBM.getD []) nodeid
  (nodeid - r.1, r.2)

/-- Source getIthLeafBytes: the fixed-size value payload of a leaf ordinal
(the codec's fixed size is carried in LeavesT). -/
def getIthLeafBytes (st : Slim) (ith : Int) : List Nat :=
  match st.leaves with
  | none => []
  | some ls => (ls.bytes.drop (ith.toNat * ls.fixedSize)).take ls.fixedSize

/-- Source getLeaf; `none` models the panic branch taken on an inner node
id, `some` the decoded value bytes (empty when Leaves is absent). -/
def getLeaf (st : Slim) (nodeid : Int) : Option (List Nat) :=
  let li := getLeafIndex st nodeid
  if li.2 = 1 then none else some (getIthLeafBytes st li.1)

/-- Source Get: exact lookup. -/
def Get (st : Slim) (key : List Nat) : Option (List Nat) × Bool :=
  let eqID := GetID st key
  if eqID = -1 then (none, false) else (getLeaf st eqID, true)

/-- Source RangeGet: range-containment lookup. -/
def RangeGet (st : Slim) (key : List Nat) : Option (List Nat) × Bool :=
  let r := searchID st key
  if r.2.1 ≠ -1 then (getLeaf st r.2.1, true)
  else if r.1 = -1 then (none, false)
  else (getLeaf st r.1, true)

/-- Source Search: neighbour lookup returning the values at lID, eqID, rID
(none for an absent side). -/
def Search (st : Slim) (key : List Nat) :
    Option (List Nat) × Option (List Nat) × Option (List Nat) :=
  let r := searchID st key
  ((if r.1 ≠ -1 then getLeaf st r.1 else none),
   (if r.2.1 ≠ -1 then getLeaf st r.2.1 else none),
   (if r.2.2 ≠ -1 then getLeaf st r.2.2 else none))

/-- Total number of set bits of a word array. -/
def totalOnes (ws : List Nat) : Nat := rank1 ws (64 * ws.length)

/-- A well-formed stored bit-string blob: nonempty, and its final byte is a
nonzero byte (it carries the terminator bit), as the builder writes them. -/
def goodBitstr (bs : List Nat) : Prop :=
  bs ≠ [] ∧ bs.getLastD 0 ≠ 0 ∧ bs.getLastD 0 < 256

instance (bs : List Nat) : Decidable (goodBitstr bs) := by
  unfold goodBitstr; infer_instance

/-- Well-formedness of the full-form inner prefixes: every blob delimited by
the positions bitmap is a well-formed bit string. -/
def wfInnerPrefixes (st : Slim) : Bool :=
  match st.innerPrefixes.positionWords with
  | none => true
  | some pw =>
    decide (∀ k, k < totalOnes st.innerPrefixes.presenceWords →
      goodBitstr ((st.innerPrefixes.bytes.drop (select32R64 pw k).1).take
        ((select32R64 pw k).2 - (select32R64 pw k).1)))

/-- Well-formedness of the trie shape (builder invariant): the child reached
through the terminator branch (label-bit 0) of any inner node is a leaf. -/
def wfTerminator (st : Slim) (key : List Nat) (l : Int) : Bool :=
  let nt := st.nodeTypeBM.getD []
  decide (∀ n, n < 64 * nt.length → wBit nt n = 1 →
    ((getLeftChildAt st (getNode st key l (n : Int)) 0).2 = 1 →
      wBit nt ((getLeftChildAt st (getNode st key l (n : Int)) 0).1 + 1).toNat = 0))

/-- Modelled from the spec (source slimtrie_marshal.go together with the
pbcmpl envelope codec, the version constants and st.init, which are not
under src/): a SlimTrie wraps the packed payload; queries depend only on the
payload, and the derived vars are recomputed by init after unmarshal. -/
structure SlimTrieS where
  inner : Slim
deriving DecidableEq, Repr

/-- Modelled from the spec: the current on-disk format version. -/
def slimtrieVersion : String := "0.5.12"

/-- Modelled from the spec (pbcmpl.Marshal is not under src/): the envelope
carries the version and the packed payload. -/
def Marshal (st : SlimTrieS) : String × Slim := (slimtrieVersion, st.inner)

/-- Modelled from the spec (pbcmpl.ReadHeader/Unmarshal and the
compatibility check are not under src/): a blob of the current version
restores the payload unchanged; the legacy (< 0.5.12) conversion paths of
the source are out of scope and refused here. -/
def Unmarshal (buf : String × Slim) : Option SlimTrieS :=
  if buf.1 = slimtrieVersion then some (SlimTrieS.mk buf.2) else none

/-- A two-node trie: an inner root with only the terminator branch, and one
leaf holding a 4-byte value. -/
def trieTerm : Slim :=
  { nodeTypeBM := some [1], inners := [1], shortBM := [0], shortTable := [],
    bigInnerCnt := 0, shortSize := 4, bigInnerOffset := 0, shortMinusInner := -13,
    innerPrefixes := { eltCnt := 0, presenceWords := [], positionWords := none, bytes := [] },
    leafPrefixes := none,
    leaves := some { bytes := [42, 0, 0, 0], fixedSize := 4 } }

/-- A three-node trie whose root carries a 7-bit length-only inner prefix
and two leaf children on labels 1 and 2; LeafPrefixes is configured with no
stored prefixes.  Querying the one-byte key 0x00 overruns the key: the
cursor ends at 11 > 8. -/
def trieOverrun : Slim :=
  { nodeTypeBM := some [1], inners := [6], shortBM := [0], shortTable := [],
    bigInnerCnt := 0, shortSize := 4, bigInnerOffset := 0, shortMinusInner := -13,
    innerPrefixes := { eltCnt := 1, presenceWords := [1], positionWords := none, bytes := [7, 0] },
    leafPrefixes := some { presenceWords := [0], positionWords := [], bytes := [] },
    leaves := some { bytes := [1, 2], fixedSize := 1 } }

/-- A two-node trie over one-byte keys with first nibble 0xA, whose single
leaf carries the leaf prefix [0xA5]. -/
def trieLeafPfx : Slim :=
  { nodeTypeBM := some [1], inners := [2048], shortBM := [0], shortTable := [],
    bigInnerCnt := 0, shortSize := 4, bigInnerOffset := 0, shortMinusInner := -13,
    innerPrefixes := { eltCnt := 0, presenceWords := [], positionWords := none, bytes := [] },
    leafPrefixes := some { presenceWords := [1], positionWords := [3], bytes := [165] },
    leaves := some { bytes := [9], fixedSize := 1 } }

/-- A trie whose root is a short inner node stored at bit offset 61, so that
its 4-bit stored bitmap crosses the word boundary; the extracted code is 13
and ShortTable expands it to 77. -/
def trieShort : Slim :=
  { nodeTypeBM := some [1], inners := [2 ^ 61 + 2 ^ 63, 1], shortBM := [1],
    shortTable := [0, 0, 0, 0, 0, 0, 0, 0, 0, 0, 0, 0, 0, 77, 0, 0],
    bigInnerCnt := 0, shortSize := 4, bigInnerOffset := 61, shortMinusInner := -13,
    innerPrefixes := { eltCnt := 0, presenceWords := [], positionWords := none, bytes := [] },
    leafPrefixes := none, leaves := none }

/-- The empty trie: NodeTypeBM is absent. -/
def trieEmpty : Slim :=
  { nodeTypeBM := none, inners := [], shortBM := [], shortTable := [],
    bigInnerCnt := 0, shortSize := 4, bigInnerOffset := 0, shortMinusInner := -13,
    innerPrefixes := { eltCnt := 0, presenceWords := [], positionWords := none, bytes := [] },
    leafPrefixes := none, leaves := none }

/-- A scratch session describing an inner node with the full-bits prefix
[0xFF, 0x80] (payload 11111111, 8 bits), for exercising the prefix-mismatch
branches. -/
def qrMismatch : QuerySession :=
  { defaultQS with
    keyBitLen := 8, key := [0], wordSize := 4, isInner := 1,
    hasInnerPrefix := true, innerPrefixLen := 8, innerPrefix := [255, 128] }

/-- A scratch session over the two-byte key [0xAB, 0xCD] at a 4-bit node,
for exercising label extraction. -/
def qrLabel : QuerySession :=
  { defaultQS with
    keyBitLen := 16, key := [171, 205], wordSize := 4, isInner := 1 }

/-- A query session over trieOverrun's root carrying a full-bits inner
prefix (first 8 bits, all ones), for the prefix-matching entry of the
descent step. -/
def qrFullPfx : QuerySession :=
  { defaultQS with
    keyBitLen := 12, key := [255, 0], wordSize := 4, fromBit := 0, toBit := 17,
    isInner := 1, hasInnerPrefix := true, innerPrefixLen := 8,
    innerPrefix := [255, 128] }


/-- The inner ordinal of a node id: rank on NodeTypeBM. -/
def ithInnerOf (st : Slim) (nid : Int) : Int :=
  (rank64 (st.nodeTypeBM.getD []) nid).1

/-- The node-type bit of a node id (1 = inner). -/
def isInnerOf (st : Slim) (nid : Int) : Int :=
  (rank64 (st.nodeTypeBM.getD []) nid).2

/-- The short ordinal of an inner ordinal: rank on ShortBM. -/
def ithShortOf (st : Slim) (nid : Int) : Int :=
  (rank64 st.shortBM (ithInnerOf st nid)).1

/-- The short bit of an inner ordinal. -/
def isShortOf (st : Slim) (nid : Int) : Int :=
  (rank64 st.shortBM (ithInnerOf st nid)).2

/-- Claim C7: on an empty instance (NodeTypeBM absent) every lookup returns
not-found: GetID returns -1, Get returns (nil, false), searchID returns
(-1, -1, -1), Search returns (nil, nil, nil) and RangeGet returns
(nil, false). -/
theorem c7_empty_all_not_found (st : Slim) (key : List Nat)
    (h : st.nodeTypeBM = none) :
    GetID st key = -1 ∧ Get st key = (none, false) ∧
    searchID st key = (-1, -1, -1) ∧ Search st key = (none, none, none) ∧
    RangeGet st key = (none, false) := by
  have h1 : GetID st key = -1 := by simp [GetID, h]
  have h2 : searchID st key = (-1, -1, -1) := by simp [searchID, h]
  refine ⟨h1, ?_, h2, ?_, ?_⟩
  · simp [Get, h1]
  · simp [Search, h2]
  · simp [RangeGet, h2]

/-- Claim C7 witness: the empty-trie instance at a concrete key. -/
theorem c7_empty_all_not_found_witness :
    GetID trieEmpty [1, 2] = -1 ∧ Get trieEmpty [1, 2] = (none, false) ∧
    searchID trieEmpty [1, 2] = (-1, -1, -1) ∧
    Search trieEmpty [1, 2] = (none, none, none) ∧
    RangeGet trieEmpty [1, 2] = (none, false) :=
  c7_empty_all_not_found trieEmpty [1, 2] (by decide)

/-- Claim C8: unmarshalling the bytes produced by Marshal succeeds and
yields an instance that behaves identically on every query (the envelope
codec is modelled from the spec; queries read only the packed payload). -/
theorem c8_marshal_roundtrip (st : SlimTrieS) (key : List Nat) :
    Unmarshal (Marshal st) = some st ∧
    Get ((Unmarshal (Marshal st)).getD st).inner key = Get st.inner key ∧
    RangeGet ((Unmarshal (Marshal st)).getD st).inner key = RangeGet st.inner key ∧
    Search ((Unmarshal (Marshal st)).getD st).inner key = Search st.inner key ∧
    GetID ((Unmarshal (Marshal st)).getD st).inner key = GetID st.inner key := by
  refine ⟨?_, ?_, ?_, ?_, ?_⟩ <;> simp [Unmarshal, Marshal]

/-- Claim C1: RangeGet dispatches on the three-way search: the value at eqID
when eqID is not -1; else the value at lID when lID is not -1; else
(nil, false). -/
theorem c1_rangeGet_dispatch (st : Slim) (key : List Nat)
    (h : st.nodeTypeBM ≠ none) :
    ((searchID st key).2.1 ≠ -1 →
      RangeGet st key = (getLeaf st (searchID st key).2.1, true)) ∧
    ((searchID st key).2.1 = -1 → (searchID st key).1 ≠ -1 →
      RangeGet st key = (getLeaf st (searchID st key).1, true)) ∧
    ((searchID st key).2.1 = -1 → (searchID st key).1 = -1 →
      RangeGet st key = (none, false)) := by
  refine ⟨fun h1 => ?_, fun h1 h2 => ?_, fun h1 h2 => ?_⟩
  · simp [RangeGet, h1]
  · simp [RangeGet, h1, h2]
  · simp [RangeGet, h1, h2]

/-- Claim C1 witness: on trieTerm the empty key matches the terminator leaf,
so RangeGet returns its value. -/
theorem c1_rangeGet_dispatch_witness :
    RangeGet trieTerm [] = (getLeaf trieTerm (searchID trieTerm []).2.1, true) :=
  (c1_rangeGet_dispatch trieTerm [] (by decide)).1 (by decide)

/-- Claim C2 counterexample: on trieTerm with the empty key, child
resolution at the terminator label returns (leftChildOrdinal, hasChild) =
(0, 1), and the matched child recorded by searchID as its equal id is node
1 = leftChildOrdinal + hasChild, not leftChildOrdinal + hasChild + 1 = 2. -/
theorem c2_counterexample :
    getLeftChildID trieTerm (getNode trieTerm [] 0 0) 0 = (0, 1) ∧
    searchID trieTerm [] = (-1, 1, -1) ∧ ¬ ((1 : Int) = 0 + 1 + 1) := by
  decide

/-- Claim C9 counterexample: on trieOverrun with key [0x00] (a well-formed
instance with LeafPrefixes configured), the descent overruns the key
(cursor 11 > 8), GetID returns -1, yet the eq component of searchID is leaf
1. -/
theorem c9_counterexample :
    GetID trieOverrun [0] = -1 ∧ (searchID trieOverrun [0]).2.1 = 1 ∧
    wfInnerPrefixes trieOverrun = true ∧
    wfTerminator trieOverrun [0] 8 = true := by
  decide

/-- Claim C3 counterexample: on trieOverrun with key [0x00] the descent
reaches leaf 1 with cursor 11; the leaf has no prefix and the key tail
key[11>>3:] is empty, hence byte-equal to the empty prefix, yet GetID
returns -1 rather than the reached node id 1. -/
theorem c3_counterexample :
    trieOverrun.leafPrefixes.isSome = true ∧
    (getIDLoop trieOverrun [0] 8 (getFuel trieOverrun) 0 0).map
      (fun x => (x.1, x.2.1, x.2.2.hasLeafPrefix)) = some (11, 1, false) ∧
    ([0] : List Nat).drop ((11 : Int) / 8).toNat = [] ∧
    GetID trieOverrun [0] = -1 := by
  decide


/-- Claim C6: label extraction returns 0 (the terminator branch) when the
cursor equals the key bit length; at a big node it returns 1 + the whole
next byte; at a 4-bit node it returns 1 + nibble, the high 4 bits of
key[i>>3] when i&7 < 4 and the low 4 bits otherwise, so the two nibbles of
each byte are consumed high-first. -/
theorem c6_label_extraction (qr : QuerySession) (i : Int) (h0 : 0 ≤ i)
    (hb : qr.key.getD (i / 8).toNat 0 < 256) :
    (i = qr.keyBitLen → getLabelIdxOfKey qr i = 0) ∧
    (i < qr.keyBitLen → qr.wordSize = 8 →
      getLabelIdxOfKey qr i = 1 + (qr.key.getD (i / 8).toNat 0 : Int)) ∧
    (i < qr.keyBitLen → qr.wordSize = 4 →
      getLabelIdxOfKey qr i =
        1 + ((if i % 8 < 4 then qr.key.getD (i / 8).toNat 0 / 16
              else qr.key.getD (i / 8).toNat 0 % 16 : Nat) : Int)) := by
  refine ⟨fun h1 => ?_, fun h1 h2 => ?_, fun h1 h2 => ?_⟩
  · simp [getLabelIdxOfKey, h1]
  · simp [getLabelIdxOfKey, h1, h2, bigWordSize]
  · have h48 : qr.wordSize ≠ bigWordSize := by rw [h2]; decide
    simp only [getLabelIdxOfKey, if_pos h1, if_neg h48]
    have h15 : (15 : Nat) = 2 ^ 4 - 1 := by decide
    split
    case isTrue hlt =>
      have hdiv : qr.key.getD (i / 8).toNat 0 >>> 4 = qr.key.getD (i / 8).toNat 0 / 16 := by
        simp [Nat.shiftRight_eq_div_pow]
      rw [hdiv, h15, Nat.and_pow_two_sub_one_eq_mod]
      have : qr.key.getD (i / 8).toNat 0 / 16 % 2 ^ 4 = qr.key.getD (i / 8).toNat 0 / 16 :=
        Nat.mod_eq_of_lt (by omega)
      rw [this]
    case isFalse hge =>
      rw [h15, Nat.and_pow_two_sub_one_eq_mod]

/-- Claim C6 witness: over the key [0xAB, 0xCD] at cursor 12 the 4-bit label
is 1 + the low nibble of 0xCD. -/
theorem c6_label_extraction_witness : getLabelIdxOfKey qrLabel 12 = 14 := by
  have h := (c6_label_extraction qrLabel 12 (by decide) (by decide)).2.2
    (by decide) (by decide)
  rw [h]; decide

/-- Claim C4: during the searchID descent, a full-bits inner prefix
comparing with result < 0 stops the descent recording rID := current node
and eqID := -1; result > 0 stops recording lID := current node and
eqID := -1; and a length-only prefix pushing the cursor beyond the key bit
length stops recording rID := current node and eqID := -1. -/
theorem c4_inner_prefix_mismatch_stops (st : Slim) (key : List Nat) (l : Int)
    (qr : QuerySession) (lID eqID rID i : Int) :
    (qr.hasInnerPrefix = true →
      strCmpUpto (key.drop (i / 8).toNat) qr.innerPrefix < 0 →
      searchStep st key l qr lID eqID rID i = .stop (StepSt.mk lID (-1) eqID i)) ∧
    (qr.hasInnerPrefix = true →
      strCmpUpto (key.drop (i / 8).toNat) qr.innerPrefix > 0 →
      searchStep st key l qr lID eqID rID i = .stop (StepSt.mk eqID (-1) rID i)) ∧
    (qr.hasInnerPrefix = false → i + qr.innerPrefixLen > l →
      searchStep st key l qr lID eqID rID i =
        .stop (StepSt.mk lID (-1) eqID (i + qr.innerPrefixLen))) := by
  refine ⟨fun h1 h2 => ?_, fun h1 h2 => ?_, fun h1 h2 => ?_⟩
  · have hne : ¬ strCmpUpto (key.drop (i / 8).toNat) qr.innerPrefix = 0 := by omega
    simp [searchStep, h1, h2, hne]
  · have hne : ¬ strCmpUpto (key.drop (i / 8).toNat) qr.innerPrefix = 0 := by omega
    have hnl : ¬ strCmpUpto (key.drop (i / 8).toNat) qr.innerPrefix < 0 := by omega
    simp [searchStep, h1, hne, hnl]
  · simp [searchStep, h1, h2]

/-- Claim C4 witness: the key byte 0x00 mismatches the stored 8-bit prefix
11111111 below (result -1), so the step stops with rID := current node 0 and
eqID := -1. -/
theorem c4_inner_prefix_mismatch_stops_witness :
    searchStep trieTerm [0] 8 qrMismatch (-1) 0 (-1) 0 =
      .stop (StepSt.mk (-1) (-1) 0 0) :=
  (c4_inner_prefix_mismatch_stops trieTerm [0] 8 qrMismatch (-1) 0 (-1) 0).1
    (by decide) (by decide)

/-- Claim C2 (amended): at an inner node visited by the searchID descent,
once the inner-prefix phase has advanced the cursor to i2 (either no inner
prefix, or a matching full-bits inner prefix), with (leftChildOrdinal,
hasChild) obtained from child resolution at the key's label, the matched
child recorded as the new equal id is leftChildOrdinal + hasChild; the
left-sibling id recorded into lID, when it lies inside this node's child
range, is leftChildOrdinal; and the right-sibling id recorded into rID,
when it lies inside the child range, is leftChildOrdinal + hasChild + 1.
(The claim's extra +1 on each of the three formulas does not hold on the
code; see the counterexample.) -/
theorem c2_child_id_arithmetic (st : Slim) (key : List Nat) (l : Int)
    (qr : QuerySession) (lID eqID rID i i2 lc has : Int)
    (hadv : (qr.hasInnerPrefix = false ∧ ¬ i + qr.innerPrefixLen > l ∧
              i2 = i + qr.innerPrefixLen) ∨
            (qr.hasInnerPrefix = true ∧
              strCmpUpto (key.drop (i / 8).toNat) qr.innerPrefix = 0 ∧
              i2 = i - i % 8 + qr.innerPrefixLen))
    (hch : getLeftChildID st qr i2 = (lc, has))
    (hhas : has = 1) :
    ((searchStep st key l qr lID eqID rID i).st.eqID = lc + has) ∧
    ((rank128 st.inners qr.fromBit).1 + 1 ≤ lc →
      lc ≤ (rank128 st.inners (qr.toBit - 1)).1 + (rank128 st.inners (qr.toBit - 1)).2 →
      (searchStep st key l qr lID eqID rID i).st.lID = lc) ∧
    ((rank128 st.inners qr.fromBit).1 + 1 ≤ lc + has + 1 →
      lc + has + 1 ≤ (rank128 st.inners (qr.toBit - 1)).1 + (rank128 st.inners (qr.toBit - 1)).2 →
      (searchStep st key l qr lID eqID rID i).st.rID = lc + has + 1) := by
  subst hhas
  have h10 : ¬ (1 : Int) = 0 := by decide
  rcases hadv with ⟨hpfx, hle, hadv⟩ | ⟨hpfx, hcmp, hadv⟩
  · subst hadv
    refine ⟨?_, fun ha hb => ?_, fun ha hb => ?_⟩ <;>
      simp only [searchStep, searchChildPhase, hpfx, Bool.false_eq_true, if_false,
        if_neg hle, hch, if_neg h10] <;>
      repeat' split
    all_goals simp only [StepOut.st]
    all_goals omega
  · subst hadv
    refine ⟨?_, fun ha hb => ?_, fun ha hb => ?_⟩ <;>
      simp only [searchStep, searchChildPhase, hpfx, hcmp, eq_self_iff_true, if_true,
        hch, if_neg h10] <;>
      repeat' split
    all_goals simp only [StepOut.st]
    all_goals omega

/-- Claim C2 witness (amended theorem): trieOverrun's root bitmap, viewed
through a session carrying a matching 8-bit full inner prefix over key
[0xFF, 0x00]; child resolution at the advanced cursor returns (0, 1), the
recorded equal id is 1 = 0 + 1 and the recorded right sibling is
2 = 0 + 1 + 1. -/
theorem c2_child_id_arithmetic_witness :
    (searchStep trieOverrun [255, 0] 12 qrFullPfx (-1) 0 (-1) 0).st.eqID = 0 + 1 ∧
    (searchStep trieOverrun [255, 0] 12 qrFullPfx (-1) 0 (-1) 0).st.rID = 0 + 1 + 1 :=
  ⟨(c2_child_id_arithmetic trieOverrun [255, 0] 12 qrFullPfx (-1) 0 (-1) 0 8 0 1
      (Or.inr (by decide)) (by decide) rfl).1,
   (c2_child_id_arithmetic trieOverrun [255, 0] 12 qrFullPfx (-1) 0 (-1) 0 8 0 1
      (Or.inr (by decide)) (by decide) rfl).2.2 (by decide) (by decide)⟩

theorem wBit_le_one (ws : List Nat) (p : Nat) : wBit ws p = 0 ∨ wBit ws p = 1 := by
  unfold wBit; split <;> simp

theorem decide_wBit_eq (ws : List Nat) (p : Nat) :
    decide (wBit ws p = 1) = (ws.getD (p / 64) 0).testBit (p % 64) := by
  unfold wBit; split <;> simp_all

theorem bitsField_testBit (ws : List Nat) (s f p : Nat) :
    (bitsField ws f s).testBit p = (decide (p < s) && decide (wBit ws (f + p) = 1)) := by
  induction s generalizing f p with
  | zero => simp [bitsField]
  | succ s ih =>
    rcases p with _ | p
    · have hb := wBit_le_one ws f
      simp only [bitsField, Nat.testBit_zero]
      rcases hb with h | h <;> simp [h] <;> omega
    · simp only [bitsField, Nat.testBit_succ]
      have hb := wBit_le_one ws f
      have hdiv : (wBit ws f + 2 * bitsField ws (f + 1) s) / 2 = bitsField ws (f + 1) s := by
        omega
      rw [hdiv, ih]
      have hidx : f + 1 + p = f + (p + 1) := by omega
      rw [hidx]
      simp [Nat.succ_lt_succ_iff]

theorem getD_lt_two_pow (ws : List Nat) (h : ∀ w ∈ ws, w < 2 ^ 64) (n : Nat) :
    ws.getD n 0 < 2 ^ 64 := by
  rcases lt_or_ge n ws.length with hn | hn
  · rw [List.getD_eq_getElem ws 0 hn]
    exact h _ (List.getElem_mem hn)
  · have : ws.getD n 0 = 0 := by
      simp [List.getD_eq_getElem?_getD, List.getElem?_eq_none hn]
    rw [this]; positivity

/-- The short-node bit extraction of getNode equals the abstract bit field,
including when the stored bits cross a 64-bit word boundary. -/
theorem shortExtract_eq_bitsField (ws : List Nat) (f s : Nat)
    (hws : ∀ w ∈ ws, w < 2 ^ 64) (hs64 : s ≤ 64) :
    (if f % 64 ≤ 64 - s then
      (ws.getD (f / 64) 0 >>> (f % 64)) &&& (2 ^ s - 1)
     else
      (ws.getD (f / 64) 0 >>> (f % 64)) |||
        ((ws.getD ((f + s) / 64) 0 <<< (64 - f % 64)) &&& (2 ^ s - 1)))
    = bitsField ws f s := by
  have hj : f % 64 < 64 := Nat.mod_lt _ (by omega)
  apply Nat.eq_of_testBit_eq
  intro p
  rw [bitsField_testBit, decide_wBit_eq]
  split
  case isTrue hbr =>
    simp only [Nat.testBit_and, Nat.testBit_shiftRight, Nat.testBit_two_pow_sub_one]
    by_cases hp : p < s
    · have e1 : (f + p) / 64 = f / 64 := by omega
      have e2 : (f + p) % 64 = f % 64 + p := by omega
      rw [e1, e2, hp |> decide_eq_true, Bool.and_true, Bool.true_and]
    · simp [hp, decide_eq_false hp]
  case isFalse hbr =>
    simp only [Nat.testBit_or, Nat.testBit_and, Nat.testBit_shiftLeft,
      Nat.testBit_shiftRight, Nat.testBit_two_pow_sub_one]
    have hw : ws.getD (f / 64) 0 < 2 ^ 64 := getD_lt_two_pow ws hws _
    by_cases hp : p < s
    · by_cases hcross : 64 - f % 64 ≤ p
      · have hwb : (ws.getD (f / 64) 0).testBit (f % 64 + p) = false := by
          apply Nat.testBit_lt_two_pow
          calc ws.getD (f / 64) 0 < 2 ^ 64 := hw
          _ ≤ 2 ^ (f % 64 + p) := Nat.pow_le_pow_right (by omega) (by omega)
        have e1 : (f + p) / 64 = (f + s) / 64 := by omega
        have e2 : (f + p) % 64 = p - (64 - f % 64) := by omega
        rw [hwb, e1, e2, hcross |> decide_eq_true, hp |> decide_eq_true]
        simp
      · have e1 : (f + p) / 64 = f / 64 := by omega
        have e2 : (f + p) % 64 = f % 64 + p := by omega
        rw [e1, e2, decide_eq_false hcross, hp |> decide_eq_true]
        simp
    · have hwb : (ws.getD (f / 64) 0).testBit (f % 64 + p) = false := by
        apply Nat.testBit_lt_two_pow
        calc ws.getD (f / 64) 0 < 2 ^ 64 := hw
        _ ≤ 2 ^ (f % 64 + p) := Nat.pow_le_pow_right (by omega) (by omega)
      rw [hwb, decide_eq_false hp]
      simp


/-- Short-node decoding at a short inner node: the bit range and the
expansion of the stored ShortSize-bit code through ShortTable. -/
theorem shortNode_decode_aux (st : Slim) (key : List Nat) (l nid : Int)
    (hmi : st.shortMinusInner = (st.shortSize : Int) - 17)
    (hs64 : st.shortSize ≤ 64)
    (hws : ∀ w ∈ st.inners, w < 2 ^ 64)
    (hinner : ¬ isInnerOf st nid = 0)
    (hbig : ¬ ithInnerOf st nid < st.bigInnerCnt)
    (hshort : isShortOf st nid = 1)
    (hfrm : 0 ≤ st.bigInnerOffset + 17 * ithInnerOf st nid +
      st.shortMinusInner * ithShortOf st nid) :
    (getNode st key l nid).fromBit =
      st.bigInnerOffset + 17 * ithInnerOf st nid +
        ((st.shortSize : Int) - 17) * ithShortOf st nid ∧
    (getNode st key l nid).toBit = (getNode st key l nid).fromBit + (st.shortSize : Int) ∧
    (getNode st key l nid).bm =
      st.shortTable.getD
        (bitsField st.inners (getNode st key l nid).fromBit.toNat st.shortSize) 0 := by
  unfold isInnerOf at hinner
  unfold isShortOf ithInnerOf at hshort
  unfold ithInnerOf at hbig
  unfold ithShortOf ithInnerOf at hfrm
  unfold ithShortOf ithInnerOf
  have hfrm2 : (0 : Int) ≤ st.bigInnerOffset +
      innerSize * (rank64 (st.nodeTypeBM.getD []) nid).1 +
      st.shortMinusInner * (rank64 st.shortBM (rank64 (st.nodeTypeBM.getD []) nid).1).1 := by
    unfold innerSize; exact hfrm
  have htn : (st.bigInnerOffset + innerSize * (rank64 (st.nodeTypeBM.getD []) nid).1 +
      st.shortMinusInner * (rank64 st.shortBM (rank64 (st.nodeTypeBM.getD []) nid).1).1 +
      (st.shortSize : Int)).toNat / 64 =
      ((st.bigInnerOffset + innerSize * (rank64 (st.nodeTypeBM.getD []) nid).1 +
      st.shortMinusInner *
        (rank64 st.shortBM (rank64 (st.nodeTypeBM.getD []) nid).1).1).toNat +
        st.shortSize) / 64 := by
    omega
  simp only [getNode, if_neg hinner, if_neg hbig, hshort, eq_self_iff_true, if_true, htn]
  rw [← shortExtract_eq_bitsField st.inners
    (st.bigInnerOffset + innerSize * (rank64 (st.nodeTypeBM.getD []) nid).1 +
      st.shortMinusInner *
        (rank64 st.shortBM (rank64 (st.nodeTypeBM.getD []) nid).1).1).toNat
    st.shortSize hws hs64]
  refine ⟨by rw [hmi]; unfold innerSize; ring, by simp, by simp⟩

/-- Claim C5: for every inner node that is not big, the decoder computes
from = BigInnerOffset + 17*ithInner + (ShortSize-17)*ithShort (given the
loaded ShortMinusInner constant equals ShortSize-17; for a normal node
ithShort counts only preceding short nodes); and when the node is short,
to = from + ShortSize and the expanded 17-bit bitmap equals ShortTable
indexed by the ShortSize-bit field of Inners.Words starting at bit `from`,
including when that field crosses a 64-bit word boundary. -/
theorem c5_short_node_decode (st : Slim) (key : List Nat) (l nid : Int)
    (hmi : st.shortMinusInner = (st.shortSize : Int) - 17)
    (hs64 : st.shortSize ≤ 64)
    (hws : ∀ w ∈ st.inners, w < 2 ^ 64)
    (hinner : ¬ isInnerOf st nid = 0)
    (hbig : ¬ ithInnerOf st nid < st.bigInnerCnt)
    (hfrm : 0 ≤ st.bigInnerOffset + 17 * ithInnerOf st nid +
      st.shortMinusInner * ithShortOf st nid) :
    (getNode st key l nid).fromBit =
      st.bigInnerOffset + 17 * ithInnerOf st nid +
        ((st.shortSize : Int) - 17) * ithShortOf st nid ∧
    (isShortOf st nid = 1 →
      (getNode st key l nid).toBit = (getNode st key l nid).fromBit + (st.shortSize : Int) ∧
      (getNode st key l nid).bm =
        st.shortTable.getD
          (bitsField st.inners (getNode st key l nid).fromBit.toNat st.shortSize) 0) := by
  by_cases hshort : isShortOf st nid = 1
  · have h := shortNode_decode_aux st key l nid hmi hs64 hws hinner hbig hshort hfrm
    exact ⟨h.1, fun _ => ⟨h.2.1, h.2.2⟩⟩
  · refine ⟨?_, fun h => absurd h hshort⟩
    unfold isInnerOf at hinner
    unfold ithInnerOf at hbig
    unfold isShortOf ithInnerOf at hshort
    unfold ithShortOf ithInnerOf
    simp only [getNode, if_neg hinner, if_neg hbig, if_neg hshort]
    rw [hmi]
    unfold innerSize
    ring

/-- Claim C5 witness: trieShort's root is a short node at bit 61; its from
bit matches the formula, and its 4-bit stored code crosses the word
boundary, reads as 13, and expands through ShortTable to 77. -/
theorem c5_short_node_decode_witness :
    ((getNode trieShort [] 0 0).fromBit =
      trieShort.bigInnerOffset + 17 * ithInnerOf trieShort 0 +
        ((trieShort.shortSize : Int) - 17) * ithShortOf trieShort 0) ∧
    (getNode trieShort [] 0 0).toBit = (getNode trieShort [] 0 0).fromBit +
      (trieShort.shortSize : Int) ∧
    (getNode trieShort [] 0 0).bm =
      trieShort.shortTable.getD
        (bitsField trieShort.inners (getNode trieShort [] 0 0).fromBit.toNat
          trieShort.shortSize) 0 :=
  ⟨(c5_short_node_decode trieShort [] 0 0 (by decide) (by decide) (by decide)
      (by decide) (by decide) (by decide)).1,
   (c5_short_node_decode trieShort [] 0 0 (by decide) (by decide) (by decide)
      (by decide) (by decide) (by decide)).2 (by decide)⟩

theorem rank1_le_of_le (ws : List Nat) {m n : Nat} (h : m ≤ n) :
    rank1 ws m ≤ rank1 ws n := by
  induction n with
  | zero =>
    have : m = 0 := by omega
    subst this; exact le_rfl
  | succ n ih =>
    rcases Nat.lt_or_ge m (n + 1) with hlt | hge
    · have h2 := ih (by omega)
      have h3 : rank1 ws (n + 1) = rank1 ws n + wBit ws n := rfl
      omega
    · have : m = n + 1 := by omega
      subst this; exact le_rfl

theorem wBit_lt_length (ws : List Nat) (p : Nat) (h : wBit ws p = 1) :
    p < 64 * ws.length := by
  by_contra hc
  have hd : ws.getD (p / 64) 0 = 0 := by
    have hlen : ws.length ≤ p / 64 := by omega
    simp [List.getD_eq_getElem?_getD, List.getElem?_eq_none hlen]
  unfold wBit at h
  rw [hd] at h
  simp at h

theorem rank1_lt_totalOnes (ws : List Nat) (p : Nat) (h : wBit ws p = 1) :
    rank1 ws p < totalOnes ws := by
  have hp := wBit_lt_length ws p h
  have h1 : rank1 ws (p + 1) = rank1 ws p + wBit ws p := rfl
  have h2 : rank1 ws (p + 1) ≤ rank1 ws (64 * ws.length) := rank1_le_of_le ws (by omega)
  unfold totalOnes
  omega

theorem innerPrefixInfo_false_len_nonneg (st : Slim) (ith : Int)
    (h : (innerPrefixInfo st ith).1 = false) :
    0 ≤ (innerPrefixInfo st ith).2.1 := by
  unfold innerPrefixInfo at h ⊢
  by_cases hc : st.innerPrefixes.eltCnt > 0 ∧
      wBit st.innerPrefixes.presenceWords ith.toNat = 1
  · rw [if_pos hc] at h ⊢
    rcases hpw : st.innerPrefixes.positionWords with _ | pw
    · dsimp only
      unfold decStep
      positivity
    · rw [hpw] at h
      simp at h
  all_goals rw [if_neg hc]
  all_goals exact le_rfl

theorem innerPrefixInfo_good (st : Slim) (ith : Int)
    (hwf : wfInnerPrefixes st = true)
    (h : (innerPrefixInfo st ith).1 = true) :
    goodBitstr (innerPrefixInfo st ith).2.2 ∧
    (innerPrefixInfo st ith).2.1 = bitstrLen (innerPrefixInfo st ith).2.2 := by
  unfold innerPrefixInfo at h ⊢
  by_cases hc : st.innerPrefixes.eltCnt > 0 ∧
      wBit st.innerPrefixes.presenceWords ith.toNat = 1
  case neg => rw [if_neg hc] at h; simp at h
  case pos =>
    rw [if_pos hc] at h ⊢
    rcases hpw : st.innerPrefixes.positionWords with _ | pw
    case none =>
      rw [hpw] at h
      simp at h
    case some =>
      dsimp only
      refine ⟨?_, rfl⟩
      unfold wfInnerPrefixes at hwf
      rw [hpw] at hwf
      have hall := of_decide_eq_true hwf
      apply hall
      have hr : ((rank128 st.innerPrefixes.presenceWords ith).1).toNat =
          rank1 st.innerPrefixes.presenceWords ith.toNat := by
        unfold rank128 rank64; simp
      rw [hr]
      exact rank1_lt_totalOnes _ _ hc.2

theorem goodBitstr_bitstrLen (bs : List Nat) (h : goodBitstr bs) :
    0 ≤ bitstrLen bs ∧ bitstrLen bs < 8 * bs.length := by
  obtain ⟨hne, hz, hlt⟩ := h
  have htz : tz8 (bs.getLastD 0) ≤ 7 := by
    have hex : ∃ k, k < 8 ∧ (bs.getLastD 0).testBit k = true := by
      by_contra hc
      push_neg at hc
      apply hz
      apply Nat.eq_of_testBit_eq
      intro j
      rcases Nat.lt_or_ge j 8 with hj | hj
      · simpa using Bool.eq_false_iff.mpr (fun hb => by simpa [hb] using hc j hj)
      · have hle : bs.getLastD 0 < 2 ^ j := by
          calc bs.getLastD 0 < 256 := hlt
          _ = 2 ^ 8 := by norm_num
          _ ≤ 2 ^ j := Nat.pow_le_pow_right (by norm_num) hj
        have hb : (bs.getLastD 0).testBit j = false := Nat.testBit_lt_two_pow hle
        simpa using hb
    obtain ⟨k, hk8, hbk⟩ := hex
    have hsome : ((List.range 8).find? (fun k => (bs.getLastD 0).testBit k)).isSome := by
      rw [List.find?_isSome]
      exact ⟨k, by simpa using hk8, by simpa using hbk⟩
    obtain ⟨v, hv⟩ := Option.isSome_iff_exists.mp hsome
    have hvmem := List.mem_of_find?_eq_some hv
    simp only [List.mem_range] at hvmem
    unfold tz8
    rw [hv]
    simpa using by omega
  have hlen : 1 ≤ bs.length := by
    cases bs
    · simp at hne
    · simp
  unfold bitstrLen
  rw [if_neg (by simpa using hne)]
  constructor <;> push_cast <;> omega

theorem cmpBoolList_eq_zero_iff : ∀ a b : List Bool, cmpBoolList a b = 0 ↔ a = b := by
  intro a
  induction a with
  | nil => intro b; cases b <;> simp [cmpBoolList]
  | cons x xs ih =>
    intro b
    cases b with
    | nil => simp [cmpBoolList]
    | cons y ys =>
      by_cases hxy : x = y
      · subst hxy; simp [cmpBoolList, ih]
      · rw [cmpBoolList, if_neg hxy]
        constructor
        · intro h
          split at h <;> simp at h
        · intro h
          injection h with h1 h2
          exact absurd h1 hxy

theorem cmpBytes_self : ∀ a : List Nat, cmpBytes a a = 0 := by
  intro a
  induction a with
  | nil => rfl
  | cons x xs ih => simp [cmpBytes, ih]

theorem length_bitsOfBytes (bs : List Nat) : (bitsOfBytes bs).length = 8 * bs.length := by
  induction bs with
  | nil => rfl
  | cons b bs ih =>
    have hcons : bitsOfBytes (b :: bs) = byteBits b ++ bitsOfBytes bs := by
      unfold bitsOfBytes
      simp
    rw [hcons]
    simp only [List.length_append, ih, List.length_cons]
    have hbb : (byteBits b).length = 8 := by simp [byteBits]
    omega

theorem strCmpUpto_zero_len_le (tail pfx : List Nat) (hg : goodBitstr pfx)
    (h : strCmpUpto tail pfx = 0) :
    (bitstrLen pfx).toNat ≤ 8 * tail.length := by
  obtain ⟨hge0, hlt⟩ := goodBitstr_bitstrLen pfx hg
  unfold strCmpUpto at h
  rw [cmpBoolList_eq_zero_iff] at h
  have hlen := congrArg List.length h
  simp only [List.length_take, length_bitsOfBytes] at hlen
  omega


theorem getNode_isInner (st : Slim) (key : List Nat) (l nid : Int) :
    (getNode st key l nid).isInner = (rank64 (st.nodeTypeBM.getD []) nid).2 := by
  simp only [getNode]
  repeat' split
  all_goals rfl

theorem getNode_keyBitLen (st : Slim) (key : List Nat) (l nid : Int) :
    (getNode st key l nid).keyBitLen = l ∧ (getNode st key l nid).key = key := by
  simp only [getNode]
  repeat' split
  all_goals exact ⟨rfl, rfl⟩

theorem getNode_leaf_fields (st : Slim) (key : List Nat) (l nid : Int)
    (h : (rank64 (st.nodeTypeBM.getD []) nid).2 = 0) :
    (getNode st key l nid).innerPrefixLen = 0 ∧
    (getNode st key l nid).hasInnerPrefix = false := by
  simp only [getNode]
  rw [if_pos h]
  exact ⟨rfl, rfl⟩

theorem getNode_inner_fields (st : Slim) (key : List Nat) (l nid : Int)
    (h : ¬ (rank64 (st.nodeTypeBM.getD []) nid).2 = 0) :
    (getNode st key l nid).hasInnerPrefix = (innerPrefixInfo st (ithInnerOf st nid)).1 ∧
    (getNode st key l nid).innerPrefixLen = (innerPrefixInfo st (ithInnerOf st nid)).2.1 ∧
    (getNode st key l nid).innerPrefix = (innerPrefixInfo st (ithInnerOf st nid)).2.2 ∧
    ((getNode st key l nid).wordSize = 4 ∨ (getNode st key l nid).wordSize = 8) := by
  unfold ithInnerOf
  simp only [getNode]
  rw [if_neg h]
  refine ⟨?_, ?_, ?_, ?_⟩ <;> (repeat' split) <;>
    first
      | rfl
      | exact Or.inr rfl
      | exact Or.inl rfl

theorem getNode_innerPrefix_good (st : Slim) (key : List Nat) (l nid : Int)
    (hwf : wfInnerPrefixes st = true)
    (hin : ¬ (getNode st key l nid).isInner = 0)
    (hp : (getNode st key l nid).hasInnerPrefix = true) :
    goodBitstr (getNode st key l nid).innerPrefix ∧
    (getNode st key l nid).innerPrefixLen = bitstrLen (getNode st key l nid).innerPrefix := by
  rw [getNode_isInner] at hin
  obtain ⟨h1, h2, h3, _⟩ := getNode_inner_fields st key l nid hin
  rw [h1] at hp
  obtain ⟨hg, hlen⟩ := innerPrefixInfo_good st _ hwf hp
  rw [h2, h3, hlen]
  exact ⟨hg, rfl⟩

theorem getNode_len_nonneg (st : Slim) (key : List Nat) (l nid : Int)
    (hwf : wfInnerPrefixes st = true) :
    0 ≤ (getNode st key l nid).innerPrefixLen := by
  by_cases hbit : (rank64 (st.nodeTypeBM.getD []) nid).2 = 0
  · rw [(getNode_leaf_fields st key l nid hbit).1]
  · obtain ⟨h1, h2, _, _⟩ := getNode_inner_fields st key l nid hbit
    cases hhp : (innerPrefixInfo st (ithInnerOf st nid)).1
    · rw [h2]
      exact innerPrefixInfo_false_len_nonneg st _ hhp
    · obtain ⟨hg, hlen⟩ := innerPrefixInfo_good st _ hwf hhp
      rw [h2, hlen]
      exact (goodBitstr_bitstrLen _ hg).1

theorem getLeftChildAt_spec (st : Slim) (qr : QuerySession) (b : Int) :
    0 ≤ (getLeftChildAt st qr b).1 ∧
    ((getLeftChildAt st qr b).2 = 0 ∨ (getLeftChildAt st qr b).2 = 1) := by
  unfold getLeftChildAt rank128 rank64
  split
  · constructor
    · positivity
    · have hmod : (qr.bm >>> b.toNat) &&& 1 = (qr.bm >>> b.toNat) % 2 :=
        Nat.and_one_is_mod _
      rcases Nat.mod_two_eq_zero_or_one (qr.bm >>> b.toNat) with h | h <;>
        simp [hmod, h]
  · constructor
    · positivity
    · rcases wBit_le_one st.inners (qr.fromBit + b).toNat with h | h <;> simp [h]


/-- Claim C3 (amended): with LeafPrefixes configured, when the descent ends
with its cursor i within the key (i ≤ key bit length), GetID returns the
reached node id iff the key tail key[i>>3:] is byte-equal to the reached
leaf's prefix (taken as the empty byte string when the leaf has no prefix);
otherwise it returns -1.  (When the cursor overruns the key, i > l, the
code returns -1 for a leaf without prefix even though the empty tail equals
the empty prefix; see the counterexample.) -/
theorem c3_getid_leaf_prefix_reconcile (st : Slim) (key : List Nat)
    (i eqID : Int) (qr : QuerySession)
    (hnt : st.nodeTypeBM.isSome = true)
    (hlp : st.leafPrefixes.isSome = true)
    (hloop : getIDLoop st key (8 * (key.length : Int)) (getFuel st) 0 0 =
      some (i, eqID, qr))
    (h0 : 0 ≤ i) (hil : i ≤ 8 * (key.length : Int))
    (hne : qr.hasLeafPrefix = true → qr.leafPrefix ≠ []) :
    GetID st key =
      (if key.drop ((i / 8).toNat) = (if qr.hasLeafPrefix then qr.leafPrefix else [])
       then eqID else -1) := by
  have hnn : st.nodeTypeBM.isNone = false := by
    cases h : st.nodeTypeBM <;> simp_all
  simp only [GetID, hnn, Bool.false_eq_true, if_false, hloop]
  simp only [reconcileGetID, hlp, if_true]
  rcases eq_or_lt_of_le hil with heq | hlt
  · rw [if_pos heq]
    have hdl : (i / 8).toNat = key.length := by omega
    have htail : key.drop ((i / 8).toNat) = [] := by
      rw [hdl]; simp
    rw [htail]
    cases hhl : qr.hasLeafPrefix
    · simp
    · have hne2 := hne hhl
      simp only [if_true]
      rw [if_neg (fun hc => hne2 hc.symm)]
  · rw [if_neg (by omega : ¬ i = 8 * (key.length : Int))]
    cases hhl : qr.hasLeafPrefix
    · have htail : ¬ key.drop ((i / 8).toNat) = [] := by
        rw [List.drop_eq_nil_iff]
        omega
      simp only [Bool.false_eq_true, if_false]
      rw [if_neg htail]
    · simp only [if_true]
      by_cases he : qr.leafPrefix = key.drop ((i / 8).toNat)
      · rw [if_pos he, if_pos he.symm]
      · rw [if_neg he, if_neg (fun hc => he hc.symm)]

/-- Claim C3 witness: on trieLeafPfx the key [0xA5] descends to leaf 1 with
cursor 4; the tail [0xA5] is byte-equal to the stored leaf prefix, so GetID
returns 1. -/
theorem c3_getid_leaf_prefix_reconcile_witness :
    GetID trieLeafPfx [165] =
      (if ([165] : List Nat).drop (((4 : Int) / 8).toNat) =
          (if (getNode trieLeafPfx [165] 8 1).hasLeafPrefix
           then (getNode trieLeafPfx [165] 8 1).leafPrefix else [])
       then 1 else -1) :=
  c3_getid_leaf_prefix_reconcile trieLeafPfx [165] 4 1 (getNode trieLeafPfx [165] 8 1)
    (by decide) (by decide) (by decide) (by decide) (by decide) (by decide)


theorem getIDLoop_reaches_leaf (st : Slim) (key : List Nat)
    (hwf : wfTerminator st key (8 * (key.length : Int)) = true) :
    ∀ fuel : Nat, ∀ i eqID : Int, 0 ≤ eqID →
      ∀ i2 e2 q2,
        getIDLoop st key (8 * (key.length : Int)) fuel i eqID = some (i2, e2, q2) →
        0 ≤ e2 ∧ wBit (st.nodeTypeBM.getD []) e2.toNat = 0 := by
  intro fuel
  induction fuel with
  | zero =>
    intro i eqID h0 i2 e2 q2 h
    simp [getIDLoop] at h
  | succ fuel ih =>
    intro i eqID h0 i2 e2 q2 h
    by_cases hleaf : (getNode st key (8 * (key.length : Int)) eqID).isInner = 0
    · simp only [getIDLoop, if_pos hleaf, Option.some.injEq, Prod.mk.injEq] at h
      obtain ⟨rfl, rfl, rfl⟩ := h
      refine ⟨h0, ?_⟩
      rw [getNode_isInner] at hleaf
      unfold rank64 at hleaf
      dsimp only at hleaf
      exact_mod_cast hleaf
    · simp only [getIDLoop, if_neg hleaf] at h
      rcases hstep : (if (getNode st key (8 * (key.length : Int)) eqID).hasInnerPrefix = true
          then (if strCmpUpto (key.drop ((i / 8).toNat))
                    (getNode st key (8 * (key.length : Int)) eqID).innerPrefix = 0
                then some (i - i % 8 +
                  (getNode st key (8 * (key.length : Int)) eqID).innerPrefixLen)
                else none)
          else some (i + (getNode st key (8 * (key.length : Int)) eqID).innerPrefixLen))
          with _ | i3
      · rw [hstep] at h
        simp at h
      · rw [hstep] at h
        dsimp only at h
        by_cases h3 : i3 > 8 * (key.length : Int)
        · rw [if_pos h3] at h
          cases h
        · rw [if_neg h3] at h
          by_cases hc0 :
              (getLeftChildID st (getNode st key (8 * (key.length : Int)) eqID) i3).2 = 0
          · rw [if_pos hc0] at h
            cases h
          · rw [if_neg hc0] at h
            have hnn : 0 ≤
                (getLeftChildID st (getNode st key (8 * (key.length : Int)) eqID) i3).1 + 1 := by
              have := (getLeftChildAt_spec st (getNode st key (8 * (key.length : Int)) eqID)
                (getLabelIdxOfKey (getNode st key (8 * (key.length : Int)) eqID) i3)).1
              unfold getLeftChildID
              omega
            by_cases hil : i3 = 8 * (key.length : Int)
            · rw [if_pos hil] at h
              simp only [Option.some.injEq, Prod.mk.injEq] at h
              obtain ⟨rfl, rfl, rfl⟩ := h
              refine ⟨hnn, ?_⟩
              -- the terminator-branch child is a leaf by well-formedness
              have hlab : getLabelIdxOfKey (getNode st key (8 * (key.length : Int)) eqID) i3 = 0 := by
                unfold getLabelIdxOfKey
                rw [if_neg]
                rw [(getNode_keyBitLen st key (8 * (key.length : Int)) eqID).1, hil]
                omega
              have hbit1 : wBit (st.nodeTypeBM.getD []) eqID.toNat = 1 := by
                rw [getNode_isInner] at hleaf
                unfold rank64 at hleaf
                dsimp only at hleaf
                rcases wBit_le_one (st.nodeTypeBM.getD []) eqID.toNat with hb | hb
                · exfalso; apply hleaf; exact_mod_cast hb
                · exact hb
              have hrange := wBit_lt_length _ _ hbit1
              have hall := of_decide_eq_true hwf
              have happ := hall eqID.toNat hrange hbit1
              rw [Int.toNat_of_nonneg h0] at happ
              have hch0 : getLeftChildID st (getNode st key (8 * (key.length : Int)) eqID) i3 =
                  getLeftChildAt st (getNode st key (8 * (key.length : Int)) eqID) 0 := by
                unfold getLeftChildID
                rw [hlab]
              rw [hch0] at hc0 ⊢
              apply happ
              rcases (getLeftChildAt_spec st (getNode st key (8 * (key.length : Int)) eqID) 0).2
                with hb | hb
              · exact absurd hb hc0
              · exact hb
            · rw [if_neg hil] at h
              exact ih (i3 + (getNode st key (8 * (key.length : Int)) eqID).wordSize)
                _ hnn i2 e2 q2 h


/-- Claim C10: on a well-formed instance (the terminator-branch child of
every inner node is a leaf), a GetID result other than -1 is a leaf node:
its NodeTypeBM bit is 0.  Consequently the panic branch of getLeaf (modelled
as `none`) is not taken when Get decodes the result. -/
theorem c10_getid_returns_leaf (st : Slim) (key : List Nat)
    (hwf : wfTerminator st key (8 * (key.length : Int)) = true)
    (hne : GetID st key ≠ -1) :
    wBit (st.nodeTypeBM.getD []) (GetID st key).toNat = 0 ∧
    getLeaf st (GetID st key) ≠ none ∧
    Get st key = (getLeaf st (GetID st key), true) := by
  have hget : Get st key = (getLeaf st (GetID st key), true) := by
    unfold Get
    rw [if_neg hne]
  have hmain : wBit (st.nodeTypeBM.getD []) (GetID st key).toNat = 0 := by
    have hsome : st.nodeTypeBM.isNone = false := by
      cases hb : st.nodeTypeBM
      · unfold GetID at hne
        rw [hb] at hne
        simp at hne
      · simp
    unfold GetID at hne ⊢
    simp only [hsome, Bool.false_eq_true, if_false] at hne ⊢
    rcases hloop : getIDLoop st key (8 * (key.length : Int)) (getFuel st) 0 0 with _ | x
    · rw [hloop] at hne
      simp at hne
    · obtain ⟨i2, e2, q2⟩ := x
      rw [hloop] at hne
      dsimp only at hne ⊢
      have hinv := getIDLoop_reaches_leaf st key hwf (getFuel st) 0 0 le_rfl i2 e2 q2 hloop
      have hrec : reconcileGetID st key (8 * (key.length : Int)) i2 e2 q2 = e2 ∨
          reconcileGetID st key (8 * (key.length : Int)) i2 e2 q2 = -1 := by
        unfold reconcileGetID
        repeat' split
        all_goals simp
      rcases hrec with hrec | hrec
      · rw [hrec]; exact hinv.2
      · rw [hrec] at hne; simp at hne
  refine ⟨hmain, ?_, hget⟩
  unfold getLeaf getLeafIndex rank64
  dsimp only
  rw [if_neg (by
    intro hc
    rw [hmain] at hc
    simp at hc)]
  simp

/-- Claim C10 witness: on trieTerm the empty key returns leaf 1, whose node
type bit is 0 and whose value decodes without the panic branch. -/
theorem c10_getid_returns_leaf_witness :
    wBit (trieTerm.nodeTypeBM.getD []) (GetID trieTerm []).toNat = 0 ∧
    getLeaf trieTerm (GetID trieTerm []) ≠ none ∧
    Get trieTerm [] = (getLeaf trieTerm (GetID trieTerm []), true) :=
  c10_getid_returns_leaf trieTerm [] (by decide) (by decide)


/-- The two descent loops stay in lockstep: wherever GetID's loop fails
searchID's loop ends with eqID = -1, and wherever GetID's loop exits with a
state, searchID's loop exits with the same eqID, cursor and final node
record (its lID and rID being whatever sibling bookkeeping produced). -/
theorem descent_align (st : Slim) (key : List Nat)
    (hwf : wfInnerPrefixes st = true) :
    ∀ fuel : Nat, ∀ i eqID lID rID : Int,
      0 ≤ i → i ≤ 8 * (key.length : Int) + 7 →
      (getIDLoop st key (8 * (key.length : Int)) fuel i eqID = none →
        (searchLoop st key (8 * (key.length : Int)) fuel lID eqID rID i).1.eqID = -1) ∧
      (∀ i2 e2 q2,
        getIDLoop st key (8 * (key.length : Int)) fuel i eqID = some (i2, e2, q2) →
        ∃ lr rr, searchLoop st key (8 * (key.length : Int)) fuel lID eqID rID i =
          (StepSt.mk lr e2 rr i2, q2)) := by
  intro fuel
  induction fuel with
  | zero =>
    intro i eqID lID rID h0 h7
    refine ⟨fun _ => rfl, fun i2 e2 q2 h => ?_⟩
    simp [getIDLoop] at h
  | succ fuel ih =>
    intro i eqID lID rID h0 h7
    by_cases hleaf : (getNode st key (8 * (key.length : Int)) eqID).isInner = 0
    · constructor
      · intro h
        simp only [getIDLoop, if_pos hleaf] at h
        exact Option.noConfusion h
      · intro i2 e2 q2 h
        simp only [getIDLoop, if_pos hleaf, Option.some.injEq, Prod.mk.injEq] at h
        obtain ⟨rfl, rfl, rfl⟩ := h
        exact ⟨lID, rID, by simp only [searchLoop, if_pos hleaf]⟩
    · -- inner node
      have hbit := hleaf
      rw [getNode_isInner] at hbit
      have hws := (getNode_inner_fields st key (8 * (key.length : Int)) eqID hbit).2.2.2
      have hlen0 : 0 ≤ (getNode st key (8 * (key.length : Int)) eqID).innerPrefixLen :=
        getNode_len_nonneg st key (8 * (key.length : Int)) eqID hwf
      -- the child phase, shared by both prefix branches that fall through
      have hchild : ∀ i3 lID2 rID2,
          0 ≤ i3 → ¬ i3 > 8 * (key.length : Int) →
          ((if (getLeftChildID st (getNode st key (8 * (key.length : Int)) eqID) i3).2 = 0
            then none
            else if i3 = 8 * (key.length : Int)
            then some (i3,
              (getLeftChildID st (getNode st key (8 * (key.length : Int)) eqID) i3).1 + 1,
              getNode st key (8 * (key.length : Int)) eqID)
            else getIDLoop st key (8 * (key.length : Int)) fuel
              (i3 + (getNode st key (8 * (key.length : Int)) eqID).wordSize)
              ((getLeftChildID st (getNode st key (8 * (key.length : Int)) eqID) i3).1 + 1))
              = none →
            (match searchChildPhase st key (8 * (key.length : Int))
                (getNode st key (8 * (key.length : Int)) eqID) lID2 rID2 i3 with
             | StepOut.stop s => (s, getNode st key (8 * (key.length : Int)) eqID)
             | StepOut.cont s => searchLoop st key (8 * (key.length : Int)) fuel
                 s.lID s.eqID s.rID s.i).1.eqID = -1) ∧
          (∀ i4 e4 q4,
            (if (getLeftChildID st (getNode st key (8 * (key.length : Int)) eqID) i3).2 = 0
             then none
             else if i3 = 8 * (key.length : Int)
             then some (i3,
               (getLeftChildID st (getNode st key (8 * (key.length : Int)) eqID) i3).1 + 1,
               getNode st key (8 * (key.length : Int)) eqID)
             else getIDLoop st key (8 * (key.length : Int)) fuel
               (i3 + (getNode st key (8 * (key.length : Int)) eqID).wordSize)
               ((getLeftChildID st (getNode st key (8 * (key.length : Int)) eqID) i3).1 + 1))
               = some (i4, e4, q4) →
            ∃ lr rr,
              (match searchChildPhase st key (8 * (key.length : Int))
                  (getNode st key (8 * (key.length : Int)) eqID) lID2 rID2 i3 with
               | StepOut.stop s => (s, getNode st key (8 * (key.length : Int)) eqID)
               | StepOut.cont s => searchLoop st key (8 * (key.length : Int)) fuel
                   s.lID s.eqID s.rID s.i) = (StepSt.mk lr e4 rr i4, q4)) := by
        intro i3 lID2 rID2 h03 hle3
        rcases (getLeftChildAt_spec st (getNode st key (8 * (key.length : Int)) eqID)
            (getLabelIdxOfKey (getNode st key (8 * (key.length : Int)) eqID) i3)).2
          with hh | hh
        · -- no branch: both fail
          have hh0 : (getLeftChildID st (getNode st key (8 * (key.length : Int)) eqID) i3).2
              = 0 := hh
          constructor
          · intro _
            simp only [searchChildPhase, hh0, eq_self_iff_true, if_true]
          · intro i4 e4 q4 h
            rw [if_pos hh0] at h
            exact Option.noConfusion h
        · have hh1 : (getLeftChildID st (getNode st key (8 * (key.length : Int)) eqID) i3).2
              = 1 := hh
          have hh0 : ¬ (getLeftChildID st (getNode st key (8 * (key.length : Int)) eqID) i3).2
              = 0 := by rw [hh1]; omega
          by_cases hil : i3 = 8 * (key.length : Int)
          · constructor
            · intro h
              rw [if_neg hh0, if_pos hil] at h
              exact Option.noConfusion h
            · intro i4 e4 q4 h
              rw [if_neg hh0, if_pos hil] at h
              simp only [Option.some.injEq, Prod.mk.injEq] at h
              obtain ⟨rfl, rfl, rfl⟩ := h
              simp only [searchChildPhase, if_neg hh0, if_pos hil]
              rw [hh1]
              try dsimp only
              exact ⟨_, _, rfl⟩
          · constructor
            · intro h
              rw [if_neg hh0, if_neg hil] at h
              simp only [searchChildPhase, if_neg hh0, if_neg hil]
              rw [hh1]
              try dsimp only
              exact (ih _ _ _ _ (by rcases hws with hws | hws <;> omega)
                (by rcases hws with hws | hws <;> omega)).1 h
            · intro i4 e4 q4 h
              rw [if_neg hh0, if_neg hil] at h
              simp only [searchChildPhase, if_neg hh0, if_neg hil]
              rw [hh1]
              try dsimp only
              exact (ih _ _ _ _ (by rcases hws with hws | hws <;> omega)
                (by rcases hws with hws | hws <;> omega)).2 i4 e4 q4 h
      -- prefix phase
      by_cases hpfx : (getNode st key (8 * (key.length : Int)) eqID).hasInnerPrefix = true
      · by_cases hr : strCmpUpto (key.drop ((i / 8).toNat))
            (getNode st key (8 * (key.length : Int)) eqID).innerPrefix = 0
        · -- full prefix, match: both descend with the same advanced cursor
          obtain ⟨hgood, hleneq⟩ :=
            getNode_innerPrefix_good st key (8 * (key.length : Int)) eqID hwf hleaf hpfx
          have hlen8 := strCmpUpto_zero_len_le _ _ hgood hr
          have hdrop : (key.drop ((i / 8).toNat)).length = key.length - (i / 8).toNat :=
            List.length_drop _ _
          have hile : ¬ (i - i % 8 +
              (getNode st key (8 * (key.length : Int)) eqID).innerPrefixLen >
              8 * (key.length : Int)) := by
            rw [hleneq]
            have h1 := (goodBitstr_bitstrLen _ hgood).1
            rw [hdrop] at hlen8
            omega
          have h03 : 0 ≤ i - i % 8 +
              (getNode st key (8 * (key.length : Int)) eqID).innerPrefixLen := by
            omega
          have hgl : getIDLoop st key (8 * (key.length : Int)) (fuel + 1) i eqID =
              (if (getLeftChildID st (getNode st key (8 * (key.length : Int)) eqID)
                    (i - i % 8 +
                      (getNode st key (8 * (key.length : Int)) eqID).innerPrefixLen)).2 = 0
               then none
               else if (i - i % 8 +
                   (getNode st key (8 * (key.length : Int)) eqID).innerPrefixLen) =
                   8 * (key.length : Int)
               then some ((i - i % 8 +
                   (getNode st key (8 * (key.length : Int)) eqID).innerPrefixLen),
                 (getLeftChildID st (getNode st key (8 * (key.length : Int)) eqID)
                   (i - i % 8 +
                     (getNode st key (8 * (key.length : Int)) eqID).innerPrefixLen)).1 + 1,
                 getNode st key (8 * (key.length : Int)) eqID)
               else getIDLoop st key (8 * (key.length : Int)) fuel
                 ((i - i % 8 +
                   (getNode st key (8 * (key.length : Int)) eqID).innerPrefixLen) +
                   (getNode st key (8 * (key.length : Int)) eqID).wordSize)
                 ((getLeftChildID st (getNode st key (8 * (key.length : Int)) eqID)
                   (i - i % 8 +
                     (getNode st key (8 * (key.length : Int)) eqID).innerPrefixLen)).1 + 1)) := by
            simp only [getIDLoop, if_neg hleaf, hpfx, eq_self_iff_true, if_true, hr]
            try dsimp only
            rw [if_neg hile]
          have hsl : searchLoop st key (8 * (key.length : Int)) (fuel + 1) lID eqID rID i =
              (match searchChildPhase st key (8 * (key.length : Int))
                  (getNode st key (8 * (key.length : Int)) eqID) lID rID
                  (i - i % 8 +
                    (getNode st key (8 * (key.length : Int)) eqID).innerPrefixLen) with
               | StepOut.stop s => (s, getNode st key (8 * (key.length : Int)) eqID)
               | StepOut.cont s => searchLoop st key (8 * (key.length : Int)) fuel
                   s.lID s.eqID s.rID s.i) := by
            simp only [searchLoop, if_neg hleaf, searchStep, hpfx, eq_self_iff_true,
              if_true, hr]
          rw [hgl, hsl]
          exact hchild _ lID rID h03 hile
        · -- full prefix, mismatch: GetID fails, searchID stops with eqID = -1
          constructor
          · intro _
            simp only [searchLoop, if_neg hleaf, searchStep, hpfx, eq_self_iff_true,
              if_true, hr, Bool.false_eq_true, if_false]
            by_cases hlt : strCmpUpto (key.drop ((i / 8).toNat))
                (getNode st key (8 * (key.length : Int)) eqID).innerPrefix < 0
            · rw [if_pos hlt]
            · rw [if_neg hlt]
          · intro i2 e2 q2 h
            simp only [getIDLoop, if_neg hleaf, hpfx, eq_self_iff_true, if_true, hr,
              Bool.false_eq_true, if_false] at h
            exact Option.noConfusion h
      · -- no stored prefix bits: advance by the length-only step
        by_cases hgt : i + (getNode st key (8 * (key.length : Int)) eqID).innerPrefixLen >
            8 * (key.length : Int)
        · constructor
          · intro _
            simp only [searchLoop, if_neg hleaf, searchStep, hpfx, Bool.false_eq_true,
              if_false, if_pos hgt]
          · intro i2 e2 q2 h
            simp only [getIDLoop, if_neg hleaf, hpfx, Bool.false_eq_true, if_false] at h
            rw [if_pos hgt] at h
            exact Option.noConfusion h
        · have h03 : 0 ≤ i +
              (getNode st key (8 * (key.length : Int)) eqID).innerPrefixLen := by omega
          have hgl : getIDLoop st key (8 * (key.length : Int)) (fuel + 1) i eqID =
              (if (getLeftChildID st (getNode st key (8 * (key.length : Int)) eqID)
                    (i + (getNode st key (8 * (key.length : Int)) eqID).innerPrefixLen)).2 = 0
               then none
               else if (i + (getNode st key (8 * (key.length : Int)) eqID).innerPrefixLen) =
                   8 * (key.length : Int)
               then some ((i + (getNode st key (8 * (key.length : Int)) eqID).innerPrefixLen),
                 (getLeftChildID st (getNode st key (8 * (key.length : Int)) eqID)
                   (i + (getNode st key (8 * (key.length : Int)) eqID).innerPrefixLen)).1 + 1,
                 getNode st key (8 * (key.length : Int)) eqID)
               else getIDLoop st key (8 * (key.length : Int)) fuel
                 ((i + (getNode st key (8 * (key.length : Int)) eqID).innerPrefixLen) +
                   (getNode st key (8 * (key.length : Int)) eqID).wordSize)
                 ((getLeftChildID st (getNode st key (8 * (key.length : Int)) eqID)
                   (i + (getNode st key (8 * (key.length : Int)) eqID).innerPrefixLen)).1 + 1)) := by
            simp only [getIDLoop, if_neg hleaf, hpfx, Bool.false_eq_true, if_false]
            try dsimp only
            rw [if_neg hgt]
          have hsl : searchLoop st key (8 * (key.length : Int)) (fuel + 1) lID eqID rID i =
              (match searchChildPhase st key (8 * (key.length : Int))
                  (getNode st key (8 * (key.length : Int)) eqID) lID rID
                  (i + (getNode st key (8 * (key.length : Int)) eqID).innerPrefixLen) with
               | StepOut.stop s => (s, getNode st key (8 * (key.length : Int)) eqID)
               | StepOut.cont s => searchLoop st key (8 * (key.length : Int)) fuel
                   s.lID s.eqID s.rID s.i) := by
            simp only [searchLoop, if_neg hleaf, searchStep, hpfx, Bool.false_eq_true,
              if_false]
            rw [if_neg hgt]
          rw [hgl, hsl]
          exact hchild _ lID rID h03 hgt


/-- Claim C9 (amended): on a well-formed instance, GetID equals the eq
component of searchID whenever LeafPrefixes is not configured, and the two
agree whenever GetID finds a leaf; in particular a found Get decodes the
same leaf as Search's eq value.  (When LeafPrefixes is configured and the
descent overruns the key, searchID can report eq ≠ -1 where GetID returns
-1; see the counterexample.) -/
theorem c9_getid_vs_searchid (st : Slim) (key : List Nat)
    (hwf : wfInnerPrefixes st = true) :
    (st.leafPrefixes = none → GetID st key = (searchID st key).2.1) ∧
    (GetID st key ≠ -1 → (searchID st key).2.1 = GetID st key) ∧
    ((Get st key).2 = true → (Search st key).2.1 = (Get st key).1) := by
  by_cases hnt : st.nodeTypeBM.isNone = true
  · have h1 : GetID st key = -1 := by
      unfold GetID
      rw [if_pos hnt]
    have h2 : searchID st key = (-1, -1, -1) := by
      unfold searchID
      rw [if_pos hnt]
    refine ⟨fun _ => by rw [h1, h2], fun hne => absurd h1 hne, fun hg => ?_⟩
    exfalso
    unfold Get at hg
    rw [h1] at hg
    simp at hg
  · have hnt2 : st.nodeTypeBM.isNone = false := by
      cases hb : st.nodeTypeBM.isNone
      · rfl
      · exact absurd hb hnt
    have halign := descent_align st key hwf (getFuel st) 0 0 (-1) (-1) le_rfl (by omega)
    rcases hloop : getIDLoop st key (8 * (key.length : Int)) (getFuel st) 0 0 with _ | x
    · -- descent fails on both sides
      have hs := halign.1 hloop
      have hgid : GetID st key = -1 := by
        unfold GetID
        rw [hnt2]
        simp only [Bool.false_eq_true, if_false]
        rw [hloop]
      have hsid : (searchID st key).2.1 = -1 := by
        unfold searchID
        rw [hnt2]
        simp only [Bool.false_eq_true, if_false]
        try dsimp only
        rw [if_neg (by
          intro hc
          exact hc.1 hs)]
        exact hs
      refine ⟨fun _ => by rw [hgid, hsid], fun hne => absurd hgid hne, fun hg => ?_⟩
      exfalso
      unfold Get at hg
      rw [hgid] at hg
      simp at hg
    · obtain ⟨i2, e2, q2⟩ := x
      obtain ⟨lr, rr, hsl⟩ := halign.2 i2 e2 q2 hloop
      have hgid : GetID st key = reconcileGetID st key (8 * (key.length : Int)) i2 e2 q2 := by
        unfold GetID
        rw [hnt2]
        simp only [Bool.false_eq_true, if_false]
        rw [hloop]
      have hsid : (searchID st key).2.1 =
          (if e2 ≠ -1 ∧ i2 ≤ 8 * (key.length : Int) then
            (if cmpLeafPrefix st (key.drop ((i2 / 8).toNat)) q2 = -1 then -1
             else if cmpLeafPrefix st (key.drop ((i2 / 8).toNat)) q2 = 1 then -1 else e2)
           else e2) := by
        unfold searchID
        rw [hnt2]
        simp only [Bool.false_eq_true, if_false]
        rw [hsl]
        try dsimp only
        split
        · split
          · rfl
          · split <;> rfl
        · rfl
      -- when the reconciliation accepts, the byte comparison is an equality
      have hcmp0 : i2 ≤ 8 * (key.length : Int) →
          reconcileGetID st key (8 * (key.length : Int)) i2 e2 q2 ≠ -1 →
          cmpLeafPrefix st (key.drop ((i2 / 8).toNat)) q2 = 0 := by
        intro hi2 hne2
        unfold reconcileGetID at hne2
        unfold cmpLeafPrefix
        rcases hlp : st.leafPrefixes with _ | lp
        · simp [hlp]
        · have hlps : st.leafPrefixes.isSome = true := by simp [hlp]
          rw [hlps] at hne2
          simp only [if_true] at hne2
          simp only [Option.isSome_some, if_true]
          by_cases hil : i2 = 8 * (key.length : Int)
          · rw [if_pos hil] at hne2
            cases hhl : q2.hasLeafPrefix
            · have htail : key.drop ((i2 / 8).toNat) = [] := by
                have hd : (i2 / 8).toNat = key.length := by omega
                rw [hd]
                simp
              rw [htail]
              simp [cmpBytes]
            · rw [hhl] at hne2
              simp at hne2
          · rw [if_neg hil] at hne2
            cases hhl : q2.hasLeafPrefix
            · rw [hhl] at hne2
              simp at hne2
            · rw [hhl] at hne2
              simp only [if_true] at hne2
              by_cases heq2 : q2.leafPrefix = key.drop ((i2 / 8).toNat)
              · rw [if_pos rfl, heq2]
                exact cmpBytes_self _
              · rw [if_neg heq2] at hne2
                exact absurd rfl hne2
      have hrec : reconcileGetID st key (8 * (key.length : Int)) i2 e2 q2 = e2 ∨
          reconcileGetID st key (8 * (key.length : Int)) i2 e2 q2 = -1 := by
        unfold reconcileGetID
        repeat' split
        all_goals simp
      have hmain : GetID st key ≠ -1 → (searchID st key).2.1 = GetID st key := by
        intro hne
        rw [hgid] at hne
        rcases hrec with hrec2 | hrec2
        · rw [hsid, hgid, hrec2]
          by_cases hcond : e2 ≠ -1 ∧ i2 ≤ 8 * (key.length : Int)
          · rw [if_pos hcond, hcmp0 hcond.2 hne]
            norm_num
          · rw [if_neg hcond]
        · exact absurd hrec2 hne
      refine ⟨?_, hmain, ?_⟩
      · -- LeafPrefixes nil: unconditional equality
        intro hlp
        rw [hsid, hgid]
        have hrg : reconcileGetID st key (8 * (key.length : Int)) i2 e2 q2 = e2 := by
          unfold reconcileGetID
          simp [hlp]
        have hc : cmpLeafPrefix st (key.drop ((i2 / 8).toNat)) q2 = 0 := by
          unfold cmpLeafPrefix
          simp [hlp]
        rw [hrg, hc]
        split
        · norm_num
        · rfl
      · intro hg
        have hne : GetID st key ≠ -1 := by
          intro hc
          unfold Get at hg
          rw [if_pos hc] at hg
          simp at hg
        have heq := hmain hne
        have hget : Get st key = (getLeaf st (GetID st key), true) := by
          unfold Get
          rw [if_neg hne]
        have hsearch : (Search st key).2.1 = getLeaf st (GetID st key) := by
          unfold Search
          try dsimp only
          rw [heq, if_pos hne]
        rw [hsearch, hget]

/-- Claim C9 witness (amended theorem): on trieTerm (LeafPrefixes absent)
GetID of the empty key and searchID's eq component agree. -/
theorem c9_getid_vs_searchid_witness :
    GetID trieTerm [] = (searchID trieTerm []).2.1 :=
  (c9_getid_vs_searchid trieTerm [] (by decide)).1 (by decide)

end SlimTrie
